import Mathlib

/-!
Verification of the blackjack Monte-Carlo simulation engine
(`src/wasm-module/src/lib.rs`) against its natural-language specification.

The Rust source is shallowly embedded: every function below mirrors the
corresponding Rust item, keeping its name.  Machine integers are modelled as
`Nat` with explicit wrap-around (`% 2^8`) where u8 overflow matters; `f64`
values are modelled as exact rationals (`ℚ`); fallible operations (Rust
panics such as out-of-bounds `Vec::remove` or `% 0`) return `Option`, with
`none` marking the panic.  The global random source (`getrandom::u64`) is
made explicit as a stream `ℕ → Option ℕ` indexed by a cursor: `some v` models
`Ok(v)`, `none` models `Err(_)`; every call to the draw routine advances the
cursor by one, as every Rust call consumes one `getrandom::u64()` result.
-/

/-- Rust `enum Card` from lib.rs: the 13 playable ranks plus the JS
placeholder `Empty`. -/
inductive Card where
  | Empty
  | Ace
  | Two
  | Three
  | Four
  | Five
  | Six
  | Seven
  | Eight
  | Nine
  | Ten
  | Jack
  | Queen
  | King
deriving DecidableEq, Repr

/-- Rust `Card::get_card_values`: the list of admissible point values of a
card (an ace is dual-valued; the placeholder has no values). -/
def Card.get_card_values : Card → List ℕ
  | Card.Empty => []
  | Card.Ace => [1, 11]
  | Card.Two => [2]
  | Card.Three => [3]
  | Card.Four => [4]
  | Card.Five => [5]
  | Card.Six => [6]
  | Card.Seven => [7]
  | Card.Eight => [8]
  | Card.Nine => [9]
  | Card.Ten => [10]
  | Card.Jack => [10]
  | Card.Queen => [10]
  | Card.King => [10]

/-- Rust `Deck::new`: `num_decks` copies of a standard 52-card deck, built as
an explicit card list.  The source computes `4 * num_decks` in `u8`
(`num_decks: u8`), so the repetition count wraps modulo 256; the cast to
`usize` happens only after the u8 multiplication. -/
def Deck.new (num_decks : ℕ) : List Card :=
  [Card.Ace, Card.Two, Card.Three, Card.Four,
   Card.Five, Card.Six, Card.Seven, Card.Eight,
   Card.Nine, Card.Ten, Card.Jack, Card.Queen,
   Card.King].flatMap (fun x => List.replicate ((4 * num_decks) % 256) x)

/-- Rust `Vec::swap_remove(index)`: replace the element at `index` with the
last element and pop the last element. -/
def swap_remove (cards : List Card) (index : ℕ) : List Card :=
  (cards.set index (cards.getLastD Card.Empty)).dropLast

/-- Rust `Deck::remove_card_from_deck`: remove one occurrence of a known card
via `position` + `swap_remove`; silently a no-op when the card is absent. -/
def remove_card_from_deck (cards : List Card) (card : Card) : List Card :=
  match cards.findIdx? (fun c => c == card) with
  | some index => swap_remove cards index
  | none => cards

/-- Rust `Deck::take_random_card_from_deck`.  `rand` is the result of this
call's `getrandom::u64()`: `some value` is the `Ok` branch, which indexes by
`value % cards.len()` and calls the order-preserving `Vec::remove`; `none` is
the `Err` branch, which calls `self.cards.remove(0)`.  On an empty deck both
branches panic (`% 0` in the `Ok` branch, out-of-bounds `remove(0)` in the
`Err` branch), modelled as `none`. -/
def take_random_card_from_deck (cards : List Card) (rand : Option ℕ) :
    Option (Card × List Card) :=
  match rand with
  | some value =>
      match cards with
      | [] => none
      | _ :: _ =>
          let random_index := value % cards.length
          some (cards.getD random_index Card.Empty, cards.eraseIdx random_index)
  | none =>
      match cards with
      | [] => none
      | c :: rest => some (c, rest)

/-- Rust `ProbabilityValueOutcomes` with `f64` fields modelled as `ℚ`. -/
structure ProbabilityValueOutcomes where
  estimated_value : ℚ
  win : ℚ
  loss : ℚ
  tie : ℚ
deriving DecidableEq, Repr

/-- Rust `ProbabilityValueOutcomes::new`: the neutral default
(EV 0, 50/50 win/loss, no tie). -/
def ProbabilityValueOutcomes.new : ProbabilityValueOutcomes :=
  { estimated_value := 0, win := 1/2, loss := 1/2, tie := 0 }

/-- Rust `enum GameOutcome`. -/
inductive GameOutcome where
  | WIN
  | LOSS
  | TIE
deriving DecidableEq, Repr

/-- Rust `enum BlackJackAction` (the u8 hit-count payload as `ℕ`). -/
inductive BlackJackAction where
  | HIT : ℕ → BlackJackAction
  | STAND
  | SPLIT : ℕ → BlackJackAction

/-- Rust `struct ActionOutcomes`: the seven result slots. -/
structure ActionOutcomes where
  hit_once : ProbabilityValueOutcomes
  hit_twice : ProbabilityValueOutcomes
  hit_thrice : ProbabilityValueOutcomes
  stand : ProbabilityValueOutcomes
  split_hit_once : ProbabilityValueOutcomes
  split_hit_twice : ProbabilityValueOutcomes
  split_hit_thrice : ProbabilityValueOutcomes
deriving DecidableEq, Repr

/-- Rust `ActionOutcomes::new`: all seven slots at the neutral default. -/
def ActionOutcomes.new : ActionOutcomes :=
  { hit_once := ProbabilityValueOutcomes.new
    hit_twice := ProbabilityValueOutcomes.new
    hit_thrice := ProbabilityValueOutcomes.new
    stand := ProbabilityValueOutcomes.new
    split_hit_once := ProbabilityValueOutcomes.new
    split_hit_twice := ProbabilityValueOutcomes.new
    split_hit_thrice := ProbabilityValueOutcomes.new }

/-- Decimal digit accumulator shared by the numeric-string parsers. -/
def parseDigits : List Char → ℕ → Option ℕ
  | [], acc => some acc
  | c :: cs, acc =>
      if c.isDigit then parseDigits cs (acc * 10 + (c.toNat - 48)) else none

/-- Modelled from the spec: the boundary adapter "parsing free-text numeric
fields into typed integers" (Rust `str::parse::<u8>`, which is library code
outside this repository), restricted to unsigned decimal digit strings and
failing on values above `u8::MAX`. -/
def parseU8 (s : String) : Option ℕ :=
  match s.toList with
  | [] => none
  | l => (parseDigits l 0).bind (fun v => if v ≤ 255 then some v else none)

/-- Modelled from the spec: `str::parse::<u32>` on unsigned decimal digit
strings, failing above `u32::MAX`. -/
def parseU32 (s : String) : Option ℕ :=
  match s.toList with
  | [] => none
  | l => (parseDigits l 0).bind (fun v => if v ≤ 4294967295 then some v else none)

/-- Modelled from the spec: `str::parse::<f64>` restricted to optionally
negated decimal strings with an optional fractional part, read exactly
into `ℚ`. -/
def parseF64core (l : List Char) : Option ℚ :=
  let intPart := l.takeWhile (fun c => c.isDigit)
  let rest := l.dropWhile (fun c => c.isDigit)
  if intPart = [] then none
  else
    match rest with
    | [] => (parseDigits intPart 0).map (fun n => (n : ℚ))
    | '.' :: fracs =>
        if fracs ≠ [] ∧ fracs.all (fun c => c.isDigit) then
          (parseDigits intPart 0).bind (fun n =>
            (parseDigits fracs 0).map (fun f =>
              (n : ℚ) + (f : ℚ) / ((10 : ℚ) ^ fracs.length)))
        else none
    | _ => none

/-- Sign handling wrapper for the `f64` parser model. -/
def parseF64 (s : String) : Option ℚ :=
  match s.toList with
  | '-' :: rest => (parseF64core rest).map (fun q => -q)
  | l => parseF64core l

/-- Rust `enum ParseNumberError`: which kind of numeric parse failed. -/
inductive ParseNumberError where
  | Int
  | Float
deriving DecidableEq, Repr

/-- Rust `struct UserDataStateHolder`: raw user inputs (numeric fields still
strings). -/
structure UserDataStateHolder where
  current_cards : List Card
  dealer_card : List Card
  num_decks : String
  bet_size : String
  num_sims : String

/-- Rust `struct UserDataState`: the parsed simulation inputs
(`num_decks: u8`, `bet_size: f64`, `num_sims: u32`). -/
structure UserDataState where
  current_cards : List Card
  dealer_card : List Card
  num_decks : ℕ
  bet_size : ℚ
  num_sims : ℕ
deriving DecidableEq, Repr

deriving instance DecidableEq for Except

/-- Rust `UserDataStateHolder::to_user_data_state`: filter out `Empty`
placeholder cards, then parse the three numeric fields in order, returning
the first parse error. -/
def to_user_data_state (h : UserDataStateHolder) :
    Except ParseNumberError UserDataState :=
  let current_cards := h.current_cards.filter (fun card => card ≠ Card.Empty)
  let dealer_card := h.dealer_card.filter (fun card => card ≠ Card.Empty)
  match parseU8 h.num_decks with
  | none => Except.error ParseNumberError.Int
  | some num_decks =>
    match parseF64 h.bet_size with
    | none => Except.error ParseNumberError.Float
    | some bet_size =>
      match parseU32 h.num_sims with
      | none => Except.error ParseNumberError.Int
      | some num_sims =>
        Except.ok { current_cards := current_cards, dealer_card := dealer_card,
                    num_decks := num_decks, bet_size := bet_size,
                    num_sims := num_sims }

/-- Rust `UserDataState::is_valid`: at least two player cards, exactly one
dealer card, at least one deck and at least one trial. -/
def UserDataState.is_valid (d : UserDataState) : Bool :=
  decide (2 ≤ d.current_cards.length) && d.dealer_card.length == 1 &&
    decide (1 ≤ d.num_decks) && decide (1 ≤ d.num_sims)

/-- Size of the completion tree of the stack algorithm in
`generate_value_combinations` when `card_values` remain to be chosen: a fuel
bound for the loop (each loop iteration decreases the total stack weight by at
least one, and the initial stack `[(0, 0)]` weighs `gvcWeight card_values`). -/
def gvcWeight : List (List ℕ) → ℕ
  | [] => 1
  | vs :: rest => 1 + vs.length * gvcWeight rest

/-- The `while let Some(..) = stack.pop()` loop body of Rust
`generate_value_combinations`, with the stack as a Lean list whose head is the
Rust vector's top (`push` = `cons`, `pop` = head), `results` pushed at the
end as in the source, and an explicit fuel argument (the loop has no
structural recursion; `gvcWeight` fuel is proved sufficient below).  Pushing
the values of `card_values[index]` in source order onto a Rust stack is a left
fold of `cons`.  The accumulator `current_sum` is a `u8` in the source
(`card_values: Vec<Vec<u8>>`, results `Vec<u8>`), so the addition wraps
modulo 256 as in a release build. -/
def gvcLoop (card_values : List (List ℕ)) :
    ℕ → List (ℕ × ℕ) → List ℕ → List ℕ
  | 0, _, results => results
  | _ + 1, [], results => results
  | fuel + 1, (index, current_sum) :: rest, results =>
      if index = card_values.length then
        gvcLoop card_values fuel rest (results ++ [current_sum])
      else
        gvcLoop card_values fuel
          ((card_values.getD index []).foldl
            (fun st v => (index + 1, (current_sum + v) % 256) :: st) rest)
          results

/-- Rust `generate_value_combinations`: all sums obtainable by choosing one
value from each entry of `card_values`, computed by the explicit-stack loop
starting from `[(0, 0)]` with empty results. -/
def generate_value_combinations (card_values : List (List ℕ)) : List ℕ :=
  gvcLoop card_values (gvcWeight card_values) [(0, 0)] []

/-- Rust `evaluate_hand`: map each card to its value list and expand all
combinations. -/
def evaluate_hand (cards : List Card) : List ℕ :=
  generate_value_combinations (cards.map (fun card => card.get_card_values))

/-- Rust `can_split_hand`: exactly two cards of equal rank (the `&&` is
short-circuit, so the indexing is guarded by the length test). -/
def can_split_hand (hand : List Card) : Bool :=
  hand.length == 2 && (hand.getD 0 Card.Empty == hand.getD 1 Card.Empty)

/-- Rust `evaluate_hands`: compare the best non-bust totals of the two
resolved hands from the player's perspective. -/
def evaluate_hands (players_cards dealers_cards : List Card) : GameOutcome :=
  let player_evaluations := evaluate_hand players_cards
  let dealer_evaluations := evaluate_hand dealers_cards
  let player_best_option := (player_evaluations.filter (fun v => v ≤ 21)).max?
  let dealer_best_option := (dealer_evaluations.filter (fun v => v ≤ 21)).max?
  match player_best_option, dealer_best_option with
  | none, _ => GameOutcome.LOSS
  | some _, none => GameOutcome.WIN
  | some player_best_value, some dealer_best_value =>
      if player_best_value = dealer_best_value then GameOutcome.TIE
      else if player_best_value > dealer_best_value then GameOutcome.WIN
      else GameOutcome.LOSS

/-- The `for _ in 0..num_hits { player_cards.push(draw_card()) }` loop shared
by the HIT and SPLIT arms of `handle_player_action`, over an arbitrary
stateful draw source (`draw` models the `FnMut() -> Card` closure; `none`
propagates a panic inside the closure). -/
def hit_loop (draw : σ → Option (Card × σ)) :
    ℕ → List Card → σ → Option (List Card × σ)
  | 0, cards, s => some (cards, s)
  | n + 1, cards, s =>
      match draw s with
      | none => none
      | some (c, s') => hit_loop draw n (cards ++ [c]) s'

/-- Rust `handle_player_action`: STAND leaves the hand alone, HIT draws and
appends, SPLIT first calls `player_cards.remove(1)` (a panic — `none` — when
the hand has fewer than two cards) and then draws and appends. -/
def handle_player_action (player_cards : List Card) (action : BlackJackAction)
    (draw : σ → Option (Card × σ)) (s : σ) : Option (List Card × σ) :=
  match action with
  | BlackJackAction.HIT num_hits => hit_loop draw num_hits player_cards s
  | BlackJackAction.STAND => some (player_cards, s)
  | BlackJackAction.SPLIT num_hits =>
      if 2 ≤ player_cards.length then
        hit_loop draw num_hits (player_cards.eraseIdx 1) s
      else none

/-- Rust `handle_dealer_action`: draw while every achievable total is at most
16, over an arbitrary stateful draw source.  The Rust loop has no termination
argument in the syntax, so the embedding carries fuel; for hands and sources
of real ranks the loop provably stabilises within 18 iterations (see the
dealer-policy theorem), so any sufficient fuel computes the loop's value. -/
def handle_dealer_action (draw : σ → Option (Card × σ)) :
    ℕ → List Card → σ → Option (List Card × σ)
  | 0, _, _ => none
  | fuel + 1, dealer_cards, s =>
      if (evaluate_hand dealer_cards).all (fun x => x ≤ 16) then
        match draw s with
        | none => none
        | some (c, s') => handle_dealer_action draw fuel (dealer_cards ++ [c]) s'
      else some (dealer_cards, s)

/-- Fuel given to the dealer loop inside a trial; for the real-rank hands and
decks occurring in simulations the loop stops within 18 iterations, so 64 is
comfortably sufficient. -/
def dealer_fuel : ℕ := 64

/-- Per-trial mutable draw state: the trial's deck clone plus the cursor into
the global random stream. -/
structure TrialState where
  deck : List Card
  pos : ℕ
deriving DecidableEq, Repr

/-- The `draw_card` closure of `generate_outcomes`: one
`take_random_card_from_deck` call consuming one random-stream entry. -/
def take_rand (stream : ℕ → Option ℕ) (s : TrialState) :
    Option (Card × TrialState) :=
  match take_random_card_from_deck s.deck (stream s.pos) with
  | none => none
  | some (c, deck') => some (c, { deck := deck', pos := s.pos + 1 })

/-- One trial of the loop body in Rust `generate_outcomes`: clone the deck
template, apply the player action, then the dealer policy (continuing from the
same deck clone and stream cursor), and classify the resulting hands. -/
def run_trial (data : UserDataState) (action : BlackJackAction)
    (stream : ℕ → Option ℕ) (template : List Card) (pos : ℕ) :
    Option (GameOutcome × ℕ) :=
  match handle_player_action data.current_cards action (take_rand stream)
      { deck := template, pos := pos } with
  | none => none
  | some (player_cards, s1) =>
      match handle_dealer_action (take_rand stream) dealer_fuel
          data.dealer_card s1 with
      | none => none
      | some (dealer_cards, s2) =>
          some (evaluate_hands player_cards dealer_cards, s2.pos)

/-- The `for _ in 0..data.num_sims` trial loop of Rust `generate_outcomes`,
tallying win/loss/tie counts; a panic in any trial (`none`) aborts the whole
simulation as in Rust.  The counters are inferred `i32` in the source; their
32-bit bit patterns are carried as naturals below 2^32, so each increment
wraps modulo 2^32 as in a release build (the sign reinterpretation happens at
the `as f64` cast, see `i32_val`). -/
def run_trials (data : UserDataState) (action : BlackJackAction)
    (stream : ℕ → Option ℕ) (template : List Card) :
    ℕ → ℕ × ℕ × ℕ → ℕ → Option ((ℕ × ℕ × ℕ) × ℕ)
  | 0, counts, pos => some (counts, pos)
  | k + 1, (wins, losses, ties), pos =>
      match run_trial data action stream template pos with
      | none => none
      | some (GameOutcome.WIN, pos') =>
          run_trials data action stream template k
            ((wins + 1) % 4294967296, losses, ties) pos'
      | some (GameOutcome.LOSS, pos') =>
          run_trials data action stream template k
            (wins, (losses + 1) % 4294967296, ties) pos'
      | some (GameOutcome.TIE, pos') =>
          run_trials data action stream template k
            (wins, losses, (ties + 1) % 4294967296) pos'

/-- The signed value of a 32-bit counter bit pattern: what the Rust cast
`wins as f64` reads back from an `i32` tally (the `i32` → `f64` conversion is
exact). -/
def i32_val (w : ℕ) : ℤ :=
  if w % 4294967296 < 2147483648 then ((w % 4294967296 : ℕ) : ℤ)
  else ((w % 4294967296 : ℕ) : ℤ) - 4294967296

/-- Rust `ActionOutcomes::generate_outcomes`: build the deck template with the
known cards removed, run `num_sims` trials, and reduce the tallies into
probabilities and expected value (f64 divisions modelled exactly in `ℚ`,
i32 tallies read back signed via `i32_val`).  Besides the Rust return value
the embedding also returns the advanced random-stream cursor, so that the
sequential consumption of the global random source across calls can be
expressed. -/
def generate_outcomes (data : UserDataState) (action : BlackJackAction)
    (stream : ℕ → Option ℕ) (pos : ℕ) :
    Option (ProbabilityValueOutcomes × ℕ) :=
  let deck0 := Deck.new data.num_decks
  let deck1 := data.current_cards.foldl remove_card_from_deck deck0
  let deck := data.dealer_card.foldl remove_card_from_deck deck1
  match run_trials data action stream deck data.num_sims (0, 0, 0) pos with
  | none => none
  | some ((wins, losses, ties), pos') =>
      let win_probability : ℚ := (i32_val wins : ℚ) / (data.num_sims : ℚ)
      let loss_probability : ℚ := (i32_val losses : ℚ) / (data.num_sims : ℚ)
      let tie_probability : ℚ := (i32_val ties : ℚ) / (data.num_sims : ℚ)
      let estimated_value :=
        win_probability * data.bet_size - loss_probability * data.bet_size
      some ({ estimated_value := estimated_value, win := win_probability,
              loss := loss_probability, tie := tie_probability }, pos')

/-- Model of `wasm_bindgen::JsValue` restricted to the values this module
constructs: the default value (`JsValue::default()`, i.e. `undefined`) used by
both error returns, and the serde-serialized `ActionOutcomes` returned on
success (`serde_wasm_bindgen::to_value` is modelled as total, which holds for
this plain numeric struct). -/
inductive JsValue where
  | default : JsValue
  | serialized : ActionOutcomes → JsValue
deriving DecidableEq, Repr

/-- The slot-filling sequence of Rust
`ActionOutcomes::generate_all_action_outcomes` after validation: HIT(1),
HIT(2), HIT(3), STAND are simulated unconditionally in source order, then
SPLIT(1..3) only when the hand is splittable; untouched split slots keep the
neutral defaults carried by the (fresh or cleared) `self`. -/
def run_all (data : UserDataState) (stream : ℕ → Option ℕ) (pos : ℕ) :
    Option (ActionOutcomes × ℕ) :=
  (generate_outcomes data (BlackJackAction.HIT 1) stream pos).bind (fun r1 =>
  (generate_outcomes data (BlackJackAction.HIT 2) stream r1.2).bind (fun r2 =>
  (generate_outcomes data (BlackJackAction.HIT 3) stream r2.2).bind (fun r3 =>
  (generate_outcomes data BlackJackAction.STAND stream r3.2).bind (fun r4 =>
  if can_split_hand data.current_cards then
    (generate_outcomes data (BlackJackAction.SPLIT 1) stream r4.2).bind (fun r5 =>
    (generate_outcomes data (BlackJackAction.SPLIT 2) stream r5.2).bind (fun r6 =>
    (generate_outcomes data (BlackJackAction.SPLIT 3) stream r6.2).bind (fun r7 =>
      some ({ hit_once := r1.1, hit_twice := r2.1,
              hit_thrice := r3.1, stand := r4.1,
              split_hit_once := r5.1,
              split_hit_twice := r6.1,
              split_hit_thrice := r7.1 }, r7.2))))
  else
    some ({ hit_once := r1.1, hit_twice := r2.1,
            hit_thrice := r3.1, stand := r4.1,
            split_hit_once := ProbabilityValueOutcomes.new,
            split_hit_twice := ProbabilityValueOutcomes.new,
            split_hit_thrice := ProbabilityValueOutcomes.new }, r4.2)))))

/-- Rust `ActionOutcomes::generate_all_action_outcomes`, the top-level entry:
convert and validate the raw inputs — both failure paths return
`Err(Default::default())` — then fill the slots and serialize them.  The
mutable `self` starts at the neutral defaults (a fresh `ActionOutcomes::new`,
or one restored by the `clear()` that ends every call), so the slot state is
fully captured by `run_all`; `none` models a panic inside the simulation. -/
def generate_all_action_outcomes (holder : UserDataStateHolder)
    (stream : ℕ → Option ℕ) : Option (Except JsValue JsValue) :=
  match to_user_data_state holder with
  | Except.error _ => some (Except.error JsValue.default)
  | Except.ok data =>
      if data.is_valid then
        match run_all data stream 0 with
        | none => none
        | some (outs, _) => some (Except.ok (JsValue.serialized outs))
      else some (Except.error JsValue.default)

/-- Structural reference semantics of the cartesian value expansion: all sums
obtained by picking one admissible value from each entry, accumulated with the
source's wrapping u8 addition. -/
def listSums : List (List ℕ) → List ℕ
  | [] => [0]
  | vs :: rest =>
      vs.flatMap (fun v => (listSums rest).map (fun t => (v + t) % 256))

/-- The sums still owed by the pending stack entries of `gvcLoop`: each entry
`(index, current_sum)` contributes `current_sum` wrap-added to a completion of
the remaining positions. -/
def stackSums (card_values : List (List ℕ)) (stack : List (ℕ × ℕ)) : List ℕ :=
  stack.flatMap (fun p =>
    (listSums (card_values.drop p.1)).map (fun t => (p.2 + t) % 256))

/-- Total completion-tree weight of a stack: the loop-termination measure. -/
def stackWeight (card_values : List (List ℕ)) (stack : List (ℕ × ℕ)) : ℕ :=
  (stack.map (fun p => gvcWeight (card_values.drop p.1))).sum

theorem gvcWeight_pos (l : List (List ℕ)) : 1 ≤ gvcWeight l := by
  cases l <;> simp [gvcWeight]

theorem stackWeight_append (card_values : List (List ℕ))
    (l₁ l₂ : List (ℕ × ℕ)) :
    stackWeight card_values (l₁ ++ l₂) =
      stackWeight card_values l₁ + stackWeight card_values l₂ := by
  simp [stackWeight]

theorem stackWeight_reverse (card_values : List (List ℕ)) (l : List (ℕ × ℕ)) :
    stackWeight card_values l.reverse = stackWeight card_values l := by
  simp [stackWeight, List.map_reverse, List.sum_reverse]

theorem stackSums_append (card_values : List (List ℕ)) (l₁ l₂ : List (ℕ × ℕ)) :
    stackSums card_values (l₁ ++ l₂) =
      stackSums card_values l₁ ++ stackSums card_values l₂ :=
  List.flatMap_append l₁ l₂ _

theorem stackSums_reverse_perm (card_values : List (List ℕ))
    (l : List (ℕ × ℕ)) :
    List.Perm (stackSums card_values l.reverse) (stackSums card_values l) :=
  l.reverse_perm.flatMap_right _

/-- Pushing the values of position `index` in source order is a left fold of
`cons`, i.e. prepending the reversed mapped list. -/
theorem foldl_push_eq (g : ℕ → ℕ × ℕ) (vs : List ℕ) :
    ∀ rest : List (ℕ × ℕ),
      vs.foldl (fun st v => g v :: st) rest = (vs.map g).reverse ++ rest := by
  induction vs with
  | nil => intro rest; rfl
  | cons v vs ih =>
      intro rest
      simp [List.foldl_cons, ih, List.reverse_cons, List.append_assoc]

/-- Expanding one stack entry at an in-range position preserves the owed
sums exactly. -/
theorem stackSums_push (card_values : List (List ℕ)) (index current_sum : ℕ)
    (h : index < card_values.length) :
    stackSums card_values
        ((card_values.getD index []).map
          (fun v => (index + 1, (current_sum + v) % 256))) =
      (listSums (card_values.drop index)).map
        (fun t => (current_sum + t) % 256) := by
  rw [List.getD_eq_getElem card_values [] h,
    List.drop_eq_getElem_cons h]
  show (card_values[index].map
      (fun v => (index + 1, (current_sum + v) % 256))).flatMap _ = _
  rw [List.flatMap_map, listSums, List.map_flatMap]
  refine List.flatMap_congr (fun v _ => ?_)
  rw [List.map_map]
  congr 1
  funext t
  show ((current_sum + v) % 256 + t) % 256 = (current_sum + (v + t) % 256) % 256
  omega

/-- Correctness of the explicit-stack loop: with sufficient fuel and in-range
indices it returns (a permutation of) the accumulated results followed by the
sums owed by the stack. -/
theorem gvcLoop_perm (card_values : List (List ℕ)) :
    ∀ fuel stack results,
      (∀ p ∈ stack, p.1 ≤ card_values.length ∧ p.2 < 256) →
      stackWeight card_values stack ≤ fuel →
      List.Perm (gvcLoop card_values fuel stack results)
        (results ++ stackSums card_values stack) := by
  intro fuel
  induction fuel with
  | zero =>
      intro stack results hinv hw
      cases stack with
      | nil => simp [gvcLoop, stackSums]
      | cons p rest =>
          exfalso
          have h1 : 1 ≤ gvcWeight (card_values.drop p.1) := gvcWeight_pos _
          simp only [stackWeight, List.map_cons, List.sum_cons,
            Nat.le_zero] at hw
          omega
  | succ f ih =>
      intro stack results hinv hw
      cases stack with
      | nil => simp [gvcLoop, stackSums]
      | cons p rest =>
          obtain ⟨index, current_sum⟩ := p
          by_cases h : index = card_values.length
          · have hrw : gvcLoop card_values (f + 1)
                ((index, current_sum) :: rest) results =
                gvcLoop card_values f rest (results ++ [current_sum]) := by
              simp [gvcLoop, h]
            have hwr : stackWeight card_values rest ≤ f := by
              have h1 : gvcWeight (card_values.drop index) = 1 := by
                rw [h, List.drop_length]; rfl
              simp only [stackWeight, List.map_cons, List.sum_cons, h1] at hw ⊢
              omega
            have hperm := ih rest (results ++ [current_sum])
              (fun q hq => hinv q (List.mem_cons_of_mem _ hq)) hwr
            rw [hrw]
            refine hperm.trans (List.Perm.of_eq ?_)
            have hcs : current_sum < 256 :=
              (hinv (index, current_sum) (List.mem_cons_self _ _)).2
            have hdrop : stackSums card_values ((index, current_sum) :: rest) =
                [current_sum] ++ stackSums card_values rest := by
              show (listSums (card_values.drop index)).map _ ++ _ = _
              rw [h, List.drop_length]
              simp only [listSums, List.map_cons, List.map_nil, Nat.add_zero]
              rw [Nat.mod_eq_of_lt hcs]
              rfl
            rw [hdrop, List.append_assoc]
  
          · have hle : index ≤ card_values.length :=
              (hinv (index, current_sum) (List.mem_cons_self _ _)).1
            have hlt : index < card_values.length := lt_of_le_of_ne hle h
            have hrw : gvcLoop card_values (f + 1)
                ((index, current_sum) :: rest) results =
                gvcLoop card_values f
                  (((card_values.getD index []).map
                      (fun v => (index + 1, (current_sum + v) % 256))).reverse
                    ++ rest)
                  results := by
              simp [gvcLoop, h, foldl_push_eq]
            set vs := card_values.getD index [] with hvs
            set g : ℕ → ℕ × ℕ :=
              fun v => (index + 1, (current_sum + v) % 256) with hg
            have hinv' : ∀ q ∈ (vs.map g).reverse ++ rest,
                q.1 ≤ card_values.length ∧ q.2 < 256 := by
              intro q hq
              rcases List.mem_append.mp hq with hq | hq
              · rcases List.mem_map.mp (List.mem_reverse.mp hq) with ⟨v, _, hv⟩
                rw [← hv]
                refine ⟨?_, ?_⟩
                · show index + 1 ≤ card_values.length
                  omega
                · show (current_sum + v) % 256 < 256
                  omega
              · exact hinv q (List.mem_cons_of_mem _ hq)
            have hwt : stackWeight card_values ((vs.map g).reverse ++ rest) ≤ f := by
              have hget : gvcWeight (card_values.drop index) =
                  1 + vs.length * gvcWeight (card_values.drop (index + 1)) := by
                rw [List.drop_eq_getElem_cons hlt, hvs,
                  List.getD_eq_getElem card_values [] hlt]
                rfl
              have hmapw : stackWeight card_values (vs.map g) =
                  vs.length * gvcWeight (card_values.drop (index + 1)) := by
                simp only [stackWeight, List.map_map]
                have : (fun v => gvcWeight (card_values.drop ((g v).1))) =
                    fun _ => gvcWeight (card_values.drop (index + 1)) := by
                  funext v; rfl
                rw [Function.comp_def, this, List.map_const', List.sum_replicate,
                  smul_eq_mul, Nat.mul_comm]
              rw [stackWeight_append, stackWeight_reverse, hmapw]
              simp only [stackWeight, List.map_cons, List.sum_cons, hget] at hw
              simp only [stackWeight] at hw ⊢
              omega
            have hperm := ih _ results hinv' hwt
            rw [hrw]
            refine hperm.trans ?_
            refine List.Perm.append_left results ?_
            rw [stackSums_append]
            have hpush := (stackSums_reverse_perm card_values (vs.map g)).append_right
              (stackSums card_values rest)
            refine hpush.trans (List.Perm.of_eq ?_)
            have : stackSums card_values ((index, current_sum) :: rest) =
                (listSums (card_values.drop index)).map
                  (fun t => (current_sum + t) % 256) ++
                  stackSums card_values rest := rfl
            rw [this, stackSums_push card_values index current_sum hlt]

/-- Every wrapped total is below 256. -/
theorem listSums_lt_256 (cvs : List (List ℕ)) : ∀ t ∈ listSums cvs, t < 256 := by
  induction cvs with
  | nil =>
      intro t ht
      simp [listSums] at ht
      omega
  | cons vs rest ih =>
      intro t ht
      rw [listSums] at ht
      rcases List.mem_flatMap.mp ht with ⟨v, _, hm⟩
      rcases List.mem_map.mp hm with ⟨u, _, huv⟩
      omega

/-- The stack algorithm computes exactly the structural cartesian sums, up to
order. -/
theorem generate_value_combinations_perm (card_values : List (List ℕ)) :
    List.Perm (generate_value_combinations card_values) (listSums card_values) := by
  have hinv : ∀ p ∈ [((0 : ℕ), (0 : ℕ))],
      p.1 ≤ card_values.length ∧ p.2 < 256 := by
    intro p hp
    simp only [List.mem_singleton] at hp
    subst hp
    exact ⟨Nat.zero_le _, by omega⟩
  have hw : stackWeight card_values [(0, 0)] ≤ gvcWeight card_values := by
    simp [stackWeight, List.drop_zero]
  have h := gvcLoop_perm card_values (gvcWeight card_values) [(0, 0)] [] hinv hw
  refine h.trans (List.Perm.of_eq ?_)
  have hmap : ∀ l : List ℕ, (∀ t ∈ l, t < 256) →
      l.map (fun t => (0 + t) % 256) = l := by
    intro l
    induction l with
    | nil => intro _; rfl
    | cons a tl ih2 =>
        intro hb
        have ha : a < 256 := hb a (List.mem_cons_self _ _)
        simp only [List.map_cons,
          ih2 (fun x hx => hb x (List.mem_cons_of_mem _ hx))]
        congr 1
        omega
  show [] ++ stackSums card_values [(0, 0)] = _
  simp only [stackSums, List.flatMap_cons, List.flatMap_nil, List.append_nil,
    List.nil_append, List.drop_zero]
  exact hmap _ (listSums_lt_256 card_values)

theorem evaluate_hand_perm (cards : List Card) :
    List.Perm (evaluate_hand cards)
      (listSums (cards.map (fun card => card.get_card_values))) :=
  generate_value_combinations_perm _

/-- Coercion form of the `listSums` cons equation, used to reason about
order-independence at the multiset level. -/
theorem listSums_coe_cons (vs : List ℕ) (rest : List (List ℕ)) :
    ((listSums (vs :: rest) : List ℕ) : Multiset ℕ) =
      Multiset.bind (vs : Multiset ℕ)
        (fun v => Multiset.map (fun t => (v + t) % 256)
          ((listSums rest : List ℕ) : Multiset ℕ)) := by
  show ((vs.flatMap
      (fun v => (listSums rest).map (fun t => (v + t) % 256)) : List ℕ) :
      Multiset ℕ) = _
  rw [← Multiset.coe_bind]
  simp [Multiset.map_coe]

theorem listSums_swap (a b : List ℕ) (l : List (List ℕ)) :
    List.Perm (listSums (a :: b :: l)) (listSums (b :: a :: l)) := by
  rw [← Multiset.coe_eq_coe, listSums_coe_cons, listSums_coe_cons,
    listSums_coe_cons, listSums_coe_cons]
  simp only [Multiset.map_bind, Multiset.map_map, Function.comp]
  rw [Multiset.bind_bind]
  refine Multiset.bind_congr (fun w _ => ?_)
  refine Multiset.bind_congr (fun v _ => ?_)
  congr 1
  funext t
  omega

/-- Order-independence of the cartesian sums: permuting the positions permutes
(and in particular preserves, as a multiset and hence as a set) the totals. -/
theorem listSums_perm_of_perm {l₁ l₂ : List (List ℕ)} (h : List.Perm l₁ l₂) :
    List.Perm (listSums l₁) (listSums l₂) := by
  induction h with
  | nil => exact List.Perm.refl _
  | cons x h ih =>
      show List.Perm (x.flatMap _) (x.flatMap _)
      exact List.Perm.flatMap_left x (fun a _ => ih.map _)
  | swap x y l => exact listSums_swap y x l
  | trans h₁ h₂ ih₁ ih₂ => exact ih₁.trans ih₂

theorem get_card_values_ne_nil (c : Card) (h : c ≠ Card.Empty) :
    c.get_card_values ≠ [] := by
  cases c <;> simp [Card.get_card_values] at h ⊢

theorem get_card_values_pos (c : Card) (h : c ≠ Card.Empty) :
    ∀ v ∈ c.get_card_values, 1 ≤ v := by
  cases c <;> intro v hv <;> simp [Card.get_card_values] at hv <;> omega

theorem listSums_ne_nil (cvs : List (List ℕ)) (h : ∀ vs ∈ cvs, vs ≠ []) :
    listSums cvs ≠ [] := by
  induction cvs with
  | nil => simp [listSums]
  | cons vs rest ih =>
      have hvs := h vs (List.mem_cons_self _ _)
      have hrest := ih (fun a ha => h a (List.mem_cons_of_mem _ ha))
      obtain ⟨v, hv⟩ := List.exists_mem_of_ne_nil vs hvs
      obtain ⟨t, ht⟩ := List.exists_mem_of_ne_nil _ hrest
      rw [listSums]
      exact List.ne_nil_of_mem
        (List.mem_flatMap.mpr ⟨v, hv, List.mem_map.mpr ⟨t, ht, rfl⟩⟩)

/-- Any hand of real ranks has at least one achievable total. -/
theorem evaluate_hand_ne_nil (cards : List Card)
    (h : ∀ c ∈ cards, c ≠ Card.Empty) : evaluate_hand cards ≠ [] := by
  have hp := evaluate_hand_perm cards
  have hn : listSums (cards.map fun card => card.get_card_values) ≠ [] := by
    refine listSums_ne_nil _ ?_
    intro vs hvs
    rcases List.mem_map.mp hvs with ⟨c, hc, rfl⟩
    exact get_card_values_ne_nil c (h c hc)
  intro he
  exact hn (hp.symm.trans (List.Perm.of_eq he)).eq_nil

/-- The maximum achievable total of a hand (0 for an empty total list). -/
def max_total (cards : List Card) : ℕ := (evaluate_hand cards).foldr max 0

theorem list_all_le_iff_foldr_max (l : List ℕ) (b : ℕ) :
    (l.all (fun x => x ≤ b) = true) ↔ l.foldr max 0 ≤ b := by
  induction l with
  | nil => simp
  | cons a tl ih => simp [List.all_cons, ih, Nat.max_le]

/-- The dealer loop's guard tests exactly whether the maximum achievable
total is at most 16. -/
theorem dealer_guard_iff (cards : List Card) :
    ((evaluate_hand cards).all (fun x => x ≤ 16) = true) ↔
      max_total cards ≤ 16 :=
  list_all_le_iff_foldr_max _ 16

/-- A total card-drawing source: an infinite stream of cards consumed one per
draw (the shape of the `FnMut() -> Card` closure when no panic occurs). -/
def pure_draw (stream : ℕ → Card) (n : ℕ) : Option (Card × ℕ) :=
  some (stream n, n + 1)

/-- Upper bound on card point values. -/
theorem get_card_values_le_11 (c : Card) :
    ∀ v ∈ c.get_card_values, v ≤ 11 := by
  cases c <;> intro v hv <;> simp [Card.get_card_values] at hv <;> omega

/-- The minimum achievable (wrapped) total of a hand, with 256 as the
over-the-top default for an empty total list: the measure that bounds the
dealer loop. -/
def min_total (cards : List Card) : ℕ := (evaluate_hand cards).foldr min 256

theorem foldr_min_le (l : List ℕ) : ∀ x ∈ l, l.foldr min 256 ≤ x := by
  induction l with
  | nil =>
      intro x hx
      cases hx
  | cons a tl ih =>
      intro x hx
      rcases List.mem_cons.mp hx with rfl | hx
      · exact min_le_left _ _
      · exact le_trans (min_le_right _ _) (ih x hx)

theorem le_foldr_min (l : List ℕ) (b : ℕ) (hb : b ≤ 256)
    (h : ∀ x ∈ l, b ≤ x) : b ≤ l.foldr min 256 := by
  induction l with
  | nil => exact hb
  | cons a tl ih =>
      exact le_min (h a (List.mem_cons_self _ _))
        (ih (fun x hx => h x (List.mem_cons_of_mem _ hx)))

/-- If the dealer guard holds on a real-rank hand, the minimum wrapped total
is at most 16. -/
theorem guard_min_le (hand : List Card)
    (hreal : ∀ c ∈ hand, c ≠ Card.Empty)
    (hg : (evaluate_hand hand).all (fun x => x ≤ 16) = true) :
    min_total hand ≤ 16 := by
  obtain ⟨t, ht⟩ := List.exists_mem_of_ne_nil _ (evaluate_hand_ne_nil hand hreal)
  have h2 : t ≤ 16 := of_decide_eq_true (List.all_eq_true.mp hg t ht)
  exact le_trans (foldr_min_le _ t ht) h2

/-- Drawing one real card while the guard holds raises every wrapped
achievable total strictly above the previous minimum: a total of at most 16
plus a card value of at most 11 stays below the wrap at 256. -/
theorem dealer_step_min (hand : List Card) (c : Card)
    (_hreal : ∀ x ∈ hand, x ≠ Card.Empty) (hc : c ≠ Card.Empty)
    (hg : (evaluate_hand hand).all (fun x => x ≤ 16) = true) :
    ∀ u ∈ evaluate_hand (hand ++ [c]), min_total hand + 1 ≤ u := by
  intro u hu
  have hp1 := evaluate_hand_perm (hand ++ [c])
  have hperm : List.Perm
      ((hand ++ [c]).map (fun card => card.get_card_values))
      ((c :: hand).map (fun card => card.get_card_values)) :=
    (List.perm_append_singleton c hand).map _
  have hmem : u ∈ listSums
      ((c :: hand).map (fun card => card.get_card_values)) :=
    (listSums_perm_of_perm hperm).mem_iff.mp (hp1.mem_iff.mp hu)
  rw [List.map_cons, listSums] at hmem
  rcases List.mem_flatMap.mp hmem with ⟨v, hv, hm⟩
  rcases List.mem_map.mp hm with ⟨t, htl, hvt⟩
  have ht : t ∈ evaluate_hand hand := (evaluate_hand_perm hand).mem_iff.mpr htl
  have ht16 : t ≤ 16 := of_decide_eq_true (List.all_eq_true.mp hg t ht)
  have hmin : min_total hand ≤ t := foldr_min_le _ t ht
  have hv1 : 1 ≤ v := get_card_values_pos c hc v hv
  have hv11 : v ≤ 11 := get_card_values_le_11 c v hv
  omega

/-- With a total real-rank source and sufficient fuel, the dealer loop
completes, the final hand is still real-rank, and its guard fails.  The
measure: while the guard holds the minimum wrapped total strictly increases
and stays at most 16, so at most 17 draws happen. -/
theorem dealer_loop_result (stream : ℕ → Card)
    (hs : ∀ n, stream n ≠ Card.Empty) :
    ∀ fuel hand pos, (∀ c ∈ hand, c ≠ Card.Empty) →
      18 ≤ min_total hand + fuel → 1 ≤ fuel →
      ∃ fin fpos,
        handle_dealer_action (pure_draw stream) fuel hand pos =
            some (fin, fpos) ∧
          (∀ c ∈ fin, c ≠ Card.Empty) ∧
          ¬ ((evaluate_hand fin).all (fun x => x ≤ 16) = true) := by
  intro fuel
  induction fuel with
  | zero => intro hand pos _ _ h2; omega
  | succ f ih =>
      intro hand pos hreal hlen _
      by_cases hg : (evaluate_hand hand).all (fun x => x ≤ 16) = true
      · have hm16 := guard_min_le hand hreal hg
        have hreal' : ∀ c ∈ hand ++ [stream pos], c ≠ Card.Empty := by
          intro c hc
          rcases List.mem_append.mp hc with hc | hc
          · exact hreal c hc
          · rcases List.mem_singleton.mp hc with rfl
            exact hs pos
        have hmin' : min_total hand + 1 ≤ min_total (hand ++ [stream pos]) :=
          le_foldr_min _ _ (by omega)
            (dealer_step_min hand (stream pos) hreal (hs pos) hg)
        have hlen' : 18 ≤ min_total (hand ++ [stream pos]) + f := by omega
        have hf1 : 1 ≤ f := by omega
        obtain ⟨fin, fpos, heq, hr, hgf⟩ := ih (hand ++ [stream pos]) (pos + 1)
          hreal' hlen' hf1
        refine ⟨fin, fpos, ?_, hr, hgf⟩
        rw [handle_dealer_action, if_pos hg]
        exact heq
      · refine ⟨hand, pos, ?_, hreal, hg⟩
        rw [handle_dealer_action, if_neg hg]

/-- Any two sufficient fuels compute the same dealer-loop result: the loop
genuinely terminates. -/
theorem dealer_loop_fuel_irrelevant (stream : ℕ → Card)
    (hs : ∀ n, stream n ≠ Card.Empty) :
    ∀ f₁ f₂ hand pos, (∀ c ∈ hand, c ≠ Card.Empty) →
      18 ≤ min_total hand + f₁ → 1 ≤ f₁ → 18 ≤ min_total hand + f₂ → 1 ≤ f₂ →
      handle_dealer_action (pure_draw stream) f₁ hand pos =
        handle_dealer_action (pure_draw stream) f₂ hand pos := by
  intro f₁
  induction f₁ with
  | zero => intro f₂ hand pos _ _ h; omega
  | succ a ih =>
      intro f₂ hand pos hreal h1 _ h2 hf2
      cases f₂ with
      | zero => omega
      | succ b =>
          by_cases hg : (evaluate_hand hand).all (fun x => x ≤ 16) = true
          · have hm16 := guard_min_le hand hreal hg
            have hreal' : ∀ c ∈ hand ++ [stream pos], c ≠ Card.Empty := by
              intro c hc
              rcases List.mem_append.mp hc with hc | hc
              · exact hreal c hc
              · rcases List.mem_singleton.mp hc with rfl
                exact hs pos
            have hmin' : min_total hand + 1 ≤ min_total (hand ++ [stream pos]) :=
              le_foldr_min _ _ (by omega)
                (dealer_step_min hand (stream pos) hreal (hs pos) hg)
            rw [handle_dealer_action, handle_dealer_action, if_pos hg, if_pos hg]
            exact ih b (hand ++ [stream pos]) (pos + 1) hreal'
              (by omega) (by omega) (by omega) (by omega)
          · rw [handle_dealer_action, handle_dealer_action, if_neg hg, if_neg hg]

/-- C5 (amended): for every starting dealer hand of real ranks and every
total real-rank card-drawing source, the dealer loop draws exactly while the
maximum wrapped achievable total is at most 16, and it terminates: one final
hand is reached under every fuel of at least 18, and at that point the
maximum wrapped achievable total is at least 17. -/
theorem dealer_policy_terminates (hand : List Card) (stream : ℕ → Card)
    (pos : ℕ) (hh : ∀ c ∈ hand, c ≠ Card.Empty)
    (hs : ∀ n, stream n ≠ Card.Empty) :
    ((evaluate_hand hand).all (fun x => x ≤ 16) = true ↔
        max_total hand ≤ 16) ∧
      ∃ fin fpos, 17 ≤ max_total fin ∧
        ∀ fuel, 18 ≤ fuel →
          handle_dealer_action (pure_draw stream) fuel hand pos =
            some (fin, fpos) := by
  refine ⟨dealer_guard_iff hand, ?_⟩
  obtain ⟨fin, fpos, heq, _, hgf⟩ :=
    dealer_loop_result stream hs 18 hand pos hh (by omega) (by omega)
  refine ⟨fin, fpos, ?_, ?_⟩
  · have h16 : ¬ max_total fin ≤ 16 :=
      fun hle => hgf ((dealer_guard_iff fin).mpr hle)
    omega
  · intro fuel hfuel
    rw [dealer_loop_fuel_irrelevant stream hs fuel 18 hand pos hh
      (by omega) (by omega) (by omega) (by omega)]
    exact heq

/-- Witness: a dealer holding a Six against a stream of Tens terminates with
maximum total at least 17 under every sufficient fuel. -/
theorem dealer_policy_terminates_witness :
    ((evaluate_hand [Card.Six]).all (fun x => x ≤ 16) = true ↔
        max_total [Card.Six] ≤ 16) ∧
      ∃ fin fpos, 17 ≤ max_total fin ∧
        ∀ fuel, 18 ≤ fuel →
          handle_dealer_action (pure_draw (fun _ => Card.Ten)) fuel
            [Card.Six] 0 = some (fin, fpos) :=
  dealer_policy_terminates [Card.Six] (fun _ => Card.Ten) 0 (by decide)
    (fun n => by simp)

/-- The best non-bust total of a hand as the source computes it: filter the
(u8-wrapped) achievable totals to those at most 21 and take the maximum
(`None` = bust). -/
def best_option (cards : List Card) : Option ℕ :=
  ((evaluate_hand cards).filter (fun v => v ≤ 21)).max?

/-- Modelled from the spec: the Outcome Classifier of §4.6 — player bust is a
Loss regardless of the dealer (both-bust included), dealer-only bust is a Win,
otherwise compare the best totals numerically. -/
def spec_classify : Option ℕ → Option ℕ → GameOutcome
  | none, _ => GameOutcome.LOSS
  | some _, none => GameOutcome.WIN
  | some playerBest, some dealerBest =>
      if playerBest = dealerBest then GameOutcome.TIE
      else if dealerBest < playerBest then GameOutcome.WIN
      else GameOutcome.LOSS

/-- C6 (amended): the source classifier follows the spec's classification
procedure — player bust means Loss regardless of the dealer (both-bust
included), dealer-only bust means Win, otherwise the best totals are compared
— with the best non-bust totals computed from the program's u8-wrapped
achievable totals (these coincide with the true totals whenever every
achievable total is below 256). -/
theorem evaluate_hands_spec (p d : List Card) :
    evaluate_hands p d = spec_classify (best_option p) (best_option d) := by
  simp only [evaluate_hands, best_option]
  cases ((evaluate_hand p).filter (fun v => v ≤ 21)).max? <;>
    cases ((evaluate_hand d).filter (fun v => v ≤ 21)).max? <;> rfl

/-- C7: for every hand of real ranks the achievable totals are non-empty, and
permuting the hand leaves the set of achievable totals unchanged. -/
theorem achievable_totals_nonempty_orderfree (h₁ h₂ : List Card)
    (hreal : ∀ c ∈ h₁, c ≠ Card.Empty) (hperm : List.Perm h₁ h₂) :
    evaluate_hand h₁ ≠ [] ∧
      (evaluate_hand h₁).toFinset = (evaluate_hand h₂).toFinset := by
  refine ⟨evaluate_hand_ne_nil h₁ hreal, ?_⟩
  have p1 := evaluate_hand_perm h₁
  have p2 := evaluate_hand_perm h₂
  have pm : List.Perm (h₁.map (fun card => card.get_card_values))
      (h₂.map (fun card => card.get_card_values)) := hperm.map _
  exact List.toFinset_eq_of_perm _ _
    ((p1.trans (listSums_perm_of_perm pm)).trans p2.symm)

/-- Witness: the ace-five hand and its transposition share the same total
set. -/
theorem achievable_totals_witness :
    evaluate_hand [Card.Ace, Card.Five] ≠ [] ∧
      (evaluate_hand [Card.Ace, Card.Five]).toFinset =
        (evaluate_hand [Card.Five, Card.Ace]).toFinset :=
  achievable_totals_nonempty_orderfree [Card.Ace, Card.Five]
    [Card.Five, Card.Ace] (by decide) (by decide)

/-- The list of `n` cards produced by successive draws from a stateful source,
with the final state: the reference semantics for the hit loop. -/
def draws_seq (draw : σ → Option (Card × σ)) : ℕ → σ → Option (List Card × σ)
  | 0, s => some ([], s)
  | n + 1, s =>
      match draw s with
      | none => none
      | some (c, s') =>
          match draws_seq draw n s' with
          | none => none
          | some (ds, s'') => some (c :: ds, s'')

theorem hit_loop_eq_draws (draw : σ → Option (Card × σ)) :
    ∀ n cards s, hit_loop draw n cards s =
      (draws_seq draw n s).map (fun r => (cards ++ r.1, r.2)) := by
  intro n
  induction n with
  | zero => intro cards s; simp [hit_loop, draws_seq]
  | succ n ih =>
      intro cards s
      rw [hit_loop, draws_seq]
      cases draw s with
      | none => rfl
      | some cs =>
          obtain ⟨c, s'⟩ := cs
          show hit_loop draw n (cards ++ [c]) s' =
            Option.map (fun r => (cards ++ r.1, r.2))
              (match draws_seq draw n s' with
               | none => none
               | some (ds, s'') => some (c :: ds, s''))
          rw [ih]
          cases draws_seq draw n s' with
          | none => rfl
          | some r =>
              obtain ⟨ds, s''⟩ := r
              simp

/-- C9: the player-action executor leaves the hand unchanged on Stand,
appends the `n` drawn cards in draw order on Hit(n), and on Split(n) over a
hand of at least two cards removes exactly the card at index 1 (the head
card stays in place) before appending the `n` drawn cards — always a single
hand. -/
theorem handle_player_action_spec (draw : σ → Option (Card × σ))
    (cards : List Card) (n : ℕ) (s : σ) :
    handle_player_action cards BlackJackAction.STAND draw s = some (cards, s) ∧
    handle_player_action cards (BlackJackAction.HIT n) draw s =
      (draws_seq draw n s).map (fun r => (cards ++ r.1, r.2)) ∧
    (2 ≤ cards.length →
      handle_player_action cards (BlackJackAction.SPLIT n) draw s =
        (draws_seq draw n s).map (fun r => (cards.eraseIdx 1 ++ r.1, r.2)) ∧
      (cards.eraseIdx 1).length + 1 = cards.length ∧
      (cards.eraseIdx 1).getD 0 Card.Empty = cards.getD 0 Card.Empty) := by
  refine ⟨rfl, hit_loop_eq_draws draw n cards s, ?_⟩
  intro h2
  cases cards with
  | nil => simp at h2
  | cons a tl =>
      cases tl with
      | nil => simp at h2
      | cons b t =>
          refine ⟨?_, by simp [List.eraseIdx], by simp [List.eraseIdx]⟩
          show (if 2 ≤ (a :: b :: t).length then
              hit_loop draw n ((a :: b :: t).eraseIdx 1) s else none) = _
          rw [if_pos h2]
          exact hit_loop_eq_draws draw n _ s

/-- Witness: splitting a pair of aces and hitting once against a stream of
fives. -/
theorem handle_player_action_witness :
    handle_player_action [Card.Ace, Card.Ace] (BlackJackAction.SPLIT 1)
        (fun k : ℕ => some (Card.Five, k + 1)) 0 =
      (draws_seq (fun k : ℕ => some (Card.Five, k + 1)) 1 0).map
        (fun r => ([Card.Ace, Card.Ace].eraseIdx 1 ++ r.1, r.2)) ∧
    ([Card.Ace, Card.Ace].eraseIdx 1).length + 1 =
      [Card.Ace, Card.Ace].length ∧
    ([Card.Ace, Card.Ace].eraseIdx 1).getD 0 Card.Empty =
      [Card.Ace, Card.Ace].getD 0 Card.Empty :=
  (handle_player_action_spec (fun k : ℕ => some (Card.Five, k + 1))
      [Card.Ace, Card.Ace] 1 0).2.2 (by decide)

/-- C10: with the same validated state, action and random-value stream, two
runs of the per-action simulation return identical results — the explicit
random stream is the only source of nondeterminism in the embedding. -/
theorem generate_outcomes_deterministic (data : UserDataState)
    (action : BlackJackAction) (pos : ℕ) (s₁ s₂ : ℕ → Option ℕ)
    (h : ∀ n, s₁ n = s₂ n) :
    generate_outcomes data action s₁ pos =
      generate_outcomes data action s₂ pos := by
  have hseq : s₁ = s₂ := funext h
  rw [hseq]

/-- Witness: two syntactically different but pointwise-equal streams yield the
same simulation result on a concrete state. -/
theorem generate_outcomes_deterministic_witness :
    generate_outcomes
        { current_cards := [Card.Ten, Card.Jack], dealer_card := [Card.Ten],
          num_decks := 1, bet_size := 1, num_sims := 1 }
        BlackJackAction.STAND (fun _ => some 0) 0 =
      generate_outcomes
        { current_cards := [Card.Ten, Card.Jack], dealer_card := [Card.Ten],
          num_decks := 1, bet_size := 1, num_sims := 1 }
        BlackJackAction.STAND (fun n => some (0 * n)) 0 :=
  generate_outcomes_deterministic _ BlackJackAction.STAND 0 _ _
    (fun n => by simp)

/-- C2 (amended): for numbers of decks whose u8 product `4 * numDecks` does
not overflow (numDecks at most 63), every real rank occurs exactly
`4 * numDecks` times and the deck holds `52 * numDecks` cards. -/
theorem deck_new_composition (num_decks : ℕ) (h1 : 1 ≤ num_decks)
    (h63 : num_decks ≤ 63) :
    (∀ r : Card, r ≠ Card.Empty →
      (Deck.new num_decks).count r = 4 * num_decks) ∧
    (Deck.new num_decks).length = 52 * num_decks := by
  have hmod : (4 * num_decks) % 256 = 4 * num_decks :=
    Nat.mod_eq_of_lt (by omega)
  constructor
  · intro r hr
    cases r <;>
      first
      | exact absurd rfl hr
      | simp [Deck.new, hmod, List.count_append, List.count_replicate]
  · simp [Deck.new, hmod]
    omega

/-- Witness: two decks give exactly eight aces and 104 cards. -/
theorem deck_new_composition_witness :
    (Deck.new 2).count Card.Ace = 4 * 2 ∧ (Deck.new 2).length = 52 * 2 :=
  ⟨(deck_new_composition 2 (by decide) (by decide)).1 Card.Ace (by decide),
    (deck_new_composition 2 (by decide) (by decide)).2⟩

/-- Counterexample to C2 as stated: at 64 decks the u8 multiplication
`4 * 64` wraps to 0, so the built deck is empty instead of holding 256 of
each rank. -/
theorem deck_new_overflow_counterexample :
    (Deck.new 64).count Card.Ace = 0 ∧
      ¬ (Deck.new 64).count Card.Ace = 4 * 64 ∧
      (Deck.new 64).length = 0 := by
  decide

/-- C1 (amended): a draw from a non-empty deck always returns a card (in the
`Err` branch of the random source via the deterministic first-card fallback),
removing exactly one card. -/
theorem take_random_nonempty (cards : List Card) (rand : Option ℕ)
    (h : cards ≠ []) :
    ∃ c rest, take_random_card_from_deck cards rand = some (c, rest) ∧
      rest.length + 1 = cards.length := by
  cases rand with
  | some value =>
      cases cards with
      | nil => exact absurd rfl h
      | cons a tl =>
          have hlt : value % (a :: tl).length < (a :: tl).length :=
            Nat.mod_lt _ (by simp)
          refine ⟨_, _, rfl, ?_⟩
          rw [List.length_eraseIdx_of_lt hlt]
          simp
  | none =>
      cases cards with
      | nil => exact absurd rfl h
      | cons a tl => exact ⟨a, tl, rfl, by simp⟩

/-- Witness: drawing from a two-card deck returns a card in both random-source
branches. -/
theorem take_random_nonempty_witness :
    (∃ c rest, take_random_card_from_deck [Card.Ace, Card.Two] (some 3) =
        some (c, rest) ∧ rest.length + 1 = [Card.Ace, Card.Two].length) ∧
    (∃ c rest, take_random_card_from_deck [Card.Ace, Card.Two] none =
        some (c, rest) ∧ rest.length + 1 = [Card.Ace, Card.Two].length) :=
  ⟨take_random_nonempty [Card.Ace, Card.Two] (some 3) (by decide),
    take_random_nonempty [Card.Ace, Card.Two] none (by decide)⟩

/-- Every completed trial increments exactly one tally; as long as the total
count stays below 2^32 the wrapping increments are exact, so the final counts
sum to the initial counts plus the number of trials run. -/
theorem run_trials_counts (data : UserDataState) (action : BlackJackAction)
    (stream : ℕ → Option ℕ) (template : List Card) :
    ∀ k wins losses ties pos wins' losses' ties' pos',
      wins + losses + ties + k < 4294967296 →
      run_trials data action stream template k (wins, losses, ties) pos =
          some ((wins', losses', ties'), pos') →
      wins' + losses' + ties' = wins + losses + ties + k := by
  intro k
  induction k with
  | zero =>
      intro wins losses ties pos w l t p _ heq
      simp [run_trials, Prod.mk.injEq] at heq
      omega
  | succ k ih =>
      intro wins losses ties pos w l t p hb heq
      rw [run_trials] at heq
      split at heq
      · exact absurd heq (by simp)
      · rw [Nat.mod_eq_of_lt (show wins + 1 < 4294967296 by omega)] at heq
        have := ih _ _ _ _ _ _ _ _ (by omega) heq
        omega
      · rw [Nat.mod_eq_of_lt (show losses + 1 < 4294967296 by omega)] at heq
        have := ih _ _ _ _ _ _ _ _ (by omega) heq
        omega
      · rw [Nat.mod_eq_of_lt (show ties + 1 < 4294967296 by omega)] at heq
        have := ih _ _ _ _ _ _ _ _ (by omega) heq
        omega

/-- A tally that never reaches the sign bit reads back as itself. -/
theorem i32_val_eq_of_lt (w : ℕ) (h : w < 2147483648) :
    (i32_val w : ℚ) = (w : ℚ) := by
  unfold i32_val
  rw [Nat.mod_eq_of_lt (by omega), if_pos h]
  norm_cast

/-- C3 (amended): for every completed simulation of one action whose trial
count is between 1 and 2^31 − 1 — so that the i32 tallies cannot reach the
sign bit — the reported probabilities are the tallies divided by the trial
count, they sum to exactly 1, and the estimated value is exactly
`betSize * (win - loss)`. -/
theorem generate_outcomes_probabilities (data : UserDataState)
    (action : BlackJackAction) (stream : ℕ → Option ℕ) (pos : ℕ)
    (out : ProbabilityValueOutcomes) (pos' : ℕ)
    (hn : 1 ≤ data.num_sims) (hb : data.num_sims ≤ 2147483647)
    (hrun : generate_outcomes data action stream pos = some (out, pos')) :
    ∃ wins losses ties : ℕ,
      wins + losses + ties = data.num_sims ∧
      out.win = (wins : ℚ) / (data.num_sims : ℚ) ∧
      out.loss = (losses : ℚ) / (data.num_sims : ℚ) ∧
      out.tie = (ties : ℚ) / (data.num_sims : ℚ) ∧
      out.win + out.loss + out.tie = 1 ∧
      out.estimated_value = data.bet_size * (out.win - out.loss) := by
  simp only [generate_outcomes] at hrun
  split at hrun
  · exact absurd hrun (by simp)
  · rename_i wins losses ties pfin heq
    have hsum := run_trials_counts data action stream _ data.num_sims
      0 0 0 pos wins losses ties pfin (by omega) heq
    simp only [Option.some.injEq, Prod.mk.injEq] at hrun
    obtain ⟨hout, hpos⟩ := hrun
    have hne : (data.num_sims : ℚ) ≠ 0 := Nat.cast_ne_zero.mpr (by omega)
    have hw32 := i32_val_eq_of_lt wins (by omega)
    have hl32 := i32_val_eq_of_lt losses (by omega)
    have ht32 := i32_val_eq_of_lt ties (by omega)
    refine ⟨wins, losses, ties, by omega, ?_, ?_, ?_, ?_, ?_⟩
    · rw [← hout]
      show (i32_val wins : ℚ) / (data.num_sims : ℚ) =
        (wins : ℚ) / (data.num_sims : ℚ)
      rw [hw32]
    · rw [← hout]
      show (i32_val losses : ℚ) / (data.num_sims : ℚ) =
        (losses : ℚ) / (data.num_sims : ℚ)
      rw [hl32]
    · rw [← hout]
      show (i32_val ties : ℚ) / (data.num_sims : ℚ) =
        (ties : ℚ) / (data.num_sims : ℚ)
      rw [ht32]
    · rw [← hout]
      show (i32_val wins : ℚ) / (data.num_sims : ℚ)
          + (i32_val losses : ℚ) / (data.num_sims : ℚ)
          + (i32_val ties : ℚ) / (data.num_sims : ℚ) = 1
      rw [hw32, hl32, ht32, div_add_div_same, div_add_div_same,
        ← Nat.cast_add, ← Nat.cast_add]
      rw [show wins + losses + ties = data.num_sims by omega]
      exact div_self hne
    · rw [← hout]
      show (i32_val wins : ℚ) / (data.num_sims : ℚ) * data.bet_size
          - (i32_val losses : ℚ) / (data.num_sims : ℚ) * data.bet_size =
        data.bet_size * ((i32_val wins : ℚ) / (data.num_sims : ℚ)
          - (i32_val losses : ℚ) / (data.num_sims : ℚ))
      ring

/-- Turning a computed trial tally into the simulation's return value: the
final division step of `generate_outcomes` made explicit (the tally
computation is rational-free and therefore kernel-computable). -/
theorem generate_outcomes_eq_of_run_trials (data : UserDataState)
    (action : BlackJackAction) (stream : ℕ → Option ℕ) (pos : ℕ)
    (wins losses ties pfin : ℕ)
    (h : run_trials data action stream
        (List.foldl remove_card_from_deck (List.foldl remove_card_from_deck
          (Deck.new data.num_decks) data.current_cards) data.dealer_card)
        data.num_sims (0, 0, 0) pos = some ((wins, losses, ties), pfin)) :
    generate_outcomes data action stream pos =
      some ({ estimated_value :=
                (i32_val wins : ℚ) / (data.num_sims : ℚ) * data.bet_size
                  - (i32_val losses : ℚ) / (data.num_sims : ℚ) * data.bet_size,
              win := (i32_val wins : ℚ) / (data.num_sims : ℚ),
              loss := (i32_val losses : ℚ) / (data.num_sims : ℚ),
              tie := (i32_val ties : ℚ) / (data.num_sims : ℚ) }, pfin) := by
  simp only [generate_outcomes, h]

/-- Concrete simulation inputs used by the probability witness. -/
def stand_data : UserDataState :=
  { current_cards := [Card.Ten, Card.Jack], dealer_card := [Card.Ten],
    num_decks := 1, bet_size := 2, num_sims := 1 }

/-- The outcome record computed by the witness simulation. -/
def stand_out : ProbabilityValueOutcomes :=
  { estimated_value := -2, win := 0, loss := 1, tie := 0 }

/-- Witness: a concrete completed one-trial stand simulation — tallies sum to
the trial count, probabilities sum to 1 and the EV identity holds. -/
theorem generate_outcomes_probabilities_witness :
    ∃ wins losses ties : ℕ,
      wins + losses + ties = stand_data.num_sims ∧
      stand_out.win = (wins : ℚ) / (stand_data.num_sims : ℚ) ∧
      stand_out.loss = (losses : ℚ) / (stand_data.num_sims : ℚ) ∧
      stand_out.tie = (ties : ℚ) / (stand_data.num_sims : ℚ) ∧
      stand_out.win + stand_out.loss + stand_out.tie = 1 ∧
      stand_out.estimated_value =
        stand_data.bet_size * (stand_out.win - stand_out.loss) := by
  have hgen : generate_outcomes stand_data BlackJackAction.STAND
      (fun _ => some 0) 0 = some (stand_out, 1) := by
    rw [generate_outcomes_eq_of_run_trials stand_data BlackJackAction.STAND
      (fun _ => some 0) 0 0 1 0 1 (by decide)]
    norm_num [stand_out, stand_data, i32_val]
  exact generate_outcomes_probabilities stand_data BlackJackAction.STAND
    (fun _ => some 0) 0 stand_out 1 (by decide) (by decide) hgen

/-- C4 (amended): the top-level entry returns an error value exactly when a
numeric field fails to parse or the parsed values violate a domain invariant,
and in both cases that error value is the same default `JsValue` — the two
error kinds are not distinguishable from the returned value. -/
theorem generate_all_error_cases (holder : UserDataStateHolder)
    (stream : ℕ → Option ℕ) :
    (∀ e, generate_all_action_outcomes holder stream =
        some (Except.error e) → e = JsValue.default) ∧
    (generate_all_action_outcomes holder stream =
        some (Except.error JsValue.default) ↔
      (∃ err, to_user_data_state holder = Except.error err) ∨
      (∃ data, to_user_data_state holder = Except.ok data ∧
        data.is_valid = false)) := by
  cases htd : to_user_data_state holder with
  | error err =>
      have hres : generate_all_action_outcomes holder stream =
          some (Except.error JsValue.default) := by
        simp only [generate_all_action_outcomes, htd]
      refine ⟨?_, ?_⟩
      · intro e he
        rw [hres] at he
        simp only [Option.some.injEq, Except.error.injEq] at he
        exact he.symm
      · constructor
        · intro _
          exact Or.inl ⟨err, rfl⟩
        · intro _
          exact hres
  | ok data =>
      by_cases hv : data.is_valid = true
      · have hres : generate_all_action_outcomes holder stream =
            (match run_all data stream 0 with
             | none => none
             | some (outs, _) => some (Except.ok (JsValue.serialized outs))) := by
          simp only [generate_all_action_outcomes, htd]
          rw [if_pos hv]
        refine ⟨?_, ?_⟩
        · intro e he
          rw [hres] at he
          cases hra : run_all data stream 0 with
          | none => simp [hra] at he
          | some op =>
              obtain ⟨o, p⟩ := op
              simp [hra] at he
        · constructor
          · intro he
            rw [hres] at he
            cases hra : run_all data stream 0 with
            | none => simp [hra] at he
            | some op =>
                obtain ⟨o, p⟩ := op
                simp [hra] at he
          · intro hor
            rcases hor with ⟨err, herr⟩ | ⟨d, hd, hdv⟩
            · exact absurd herr (by simp)
            · simp only [Except.ok.injEq] at hd
              subst hd
              rw [hv] at hdv
              exact absurd hdv (by simp)
      · have hres : generate_all_action_outcomes holder stream =
            some (Except.error JsValue.default) := by
          simp only [generate_all_action_outcomes, htd]
          rw [if_neg hv]
        rw [Bool.not_eq_true] at hv
        refine ⟨?_, ?_⟩
        · intro e he
          rw [hres] at he
          simp only [Option.some.injEq, Except.error.injEq] at he
          exact he.symm
        · constructor
          · intro _
            exact Or.inr ⟨data, rfl, hv⟩
          · intro _
            exact hres

/-- C8: for every valid game state whose top-level run completes, the entry
computes Stand and Hit(1..3) unconditionally (in source order, threading the
random cursor), computes the three Split slots exactly when the hand is
splittable, and otherwise leaves the three split slots at the neutral
default; and splittability is exactly "two cards of equal rank". -/
theorem generate_all_slots (holder : UserDataStateHolder)
    (stream : ℕ → Option ℕ) (data : UserDataState) (outs : ActionOutcomes)
    (hp : to_user_data_state holder = Except.ok data)
    (hv : data.is_valid = true)
    (hr : generate_all_action_outcomes holder stream =
        some (Except.ok (JsValue.serialized outs))) :
    (can_split_hand data.current_cards = true ↔
      (data.current_cards.length = 2 ∧
        data.current_cards.getD 0 Card.Empty =
          data.current_cards.getD 1 Card.Empty)) ∧
    ∃ p1 p2 p3 p4,
      generate_outcomes data (BlackJackAction.HIT 1) stream 0 =
          some (outs.hit_once, p1) ∧
      generate_outcomes data (BlackJackAction.HIT 2) stream p1 =
          some (outs.hit_twice, p2) ∧
      generate_outcomes data (BlackJackAction.HIT 3) stream p2 =
          some (outs.hit_thrice, p3) ∧
      generate_outcomes data BlackJackAction.STAND stream p3 =
          some (outs.stand, p4) ∧
      (if can_split_hand data.current_cards then
        ∃ p5 p6 p7,
          generate_outcomes data (BlackJackAction.SPLIT 1) stream p4 =
              some (outs.split_hit_once, p5) ∧
          generate_outcomes data (BlackJackAction.SPLIT 2) stream p5 =
              some (outs.split_hit_twice, p6) ∧
          generate_outcomes data (BlackJackAction.SPLIT 3) stream p6 =
              some (outs.split_hit_thrice, p7)
      else
        outs.split_hit_once = ProbabilityValueOutcomes.new ∧
        outs.split_hit_twice = ProbabilityValueOutcomes.new ∧
        outs.split_hit_thrice = ProbabilityValueOutcomes.new) := by
  constructor
  · unfold can_split_hand
    constructor
    · intro hb
      simp only [Bool.and_eq_true, beq_iff_eq] at hb
      exact ⟨hb.1, hb.2⟩
    · rintro ⟨h1, h2⟩
      have h0 : (0 : ℕ) < data.current_cards.length := by omega
      have h1' : (1 : ℕ) < data.current_cards.length := by omega
      rw [List.getD_eq_getElem _ _ h0, List.getD_eq_getElem _ _ h1'] at h2
      simp [h1, h2]
  · have hres : generate_all_action_outcomes holder stream =
        (match run_all data stream 0 with
         | none => none
         | some (outs, _) => some (Except.ok (JsValue.serialized outs))) := by
      simp only [generate_all_action_outcomes, hp]
      rw [if_pos hv]
    rw [hres] at hr
    cases hra : run_all data stream 0 with
    | none => simp [hra] at hr
    | some op =>
        obtain ⟨o, pfin⟩ := op
        rw [hra] at hr
        simp only [Option.some.injEq, Except.ok.injEq,
          JsValue.serialized.injEq] at hr
        subst hr
        unfold run_all at hra
        rw [Option.bind_eq_some] at hra
        obtain ⟨r1, hg1, hra⟩ := hra
        rw [Option.bind_eq_some] at hra
        obtain ⟨r2, hg2, hra⟩ := hra
        rw [Option.bind_eq_some] at hra
        obtain ⟨r3, hg3, hra⟩ := hra
        rw [Option.bind_eq_some] at hra
        obtain ⟨r4, hg4, hra⟩ := hra
        by_cases hsp : can_split_hand data.current_cards = true
        · rw [if_pos hsp] at hra
          rw [Option.bind_eq_some] at hra
          obtain ⟨r5, hg5, hra⟩ := hra
          rw [Option.bind_eq_some] at hra
          obtain ⟨r6, hg6, hra⟩ := hra
          rw [Option.bind_eq_some] at hra
          obtain ⟨r7, hg7, hra⟩ := hra
          simp only [Option.some.injEq, Prod.mk.injEq] at hra
          obtain ⟨hrec, hpos⟩ := hra
          subst hrec
          refine ⟨r1.2, r2.2, r3.2, r4.2, hg1, hg2, hg3, hg4, ?_⟩
          rw [if_pos hsp]
          exact ⟨r5.2, r6.2, r7.2, hg5, hg6, hg7⟩
        · rw [if_neg hsp] at hra
          simp only [Option.some.injEq, Prod.mk.injEq] at hra
          obtain ⟨hrec, hpos⟩ := hra
          subst hrec
          refine ⟨r1.2, r2.2, r3.2, r4.2, hg1, hg2, hg3, hg4, ?_⟩
          rw [if_neg hsp]
          exact ⟨rfl, rfl, rfl⟩

/-- Raw inputs of the slot-structure witness. -/
def plain_holder : UserDataStateHolder :=
  { current_cards := [Card.Ten, Card.Jack], dealer_card := [Card.Ten],
    num_decks := "1", bet_size := "1", num_sims := "1" }

/-- The parsed state of `plain_holder`. -/
def plain_data : UserDataState :=
  { current_cards := [Card.Ten, Card.Jack], dealer_card := [Card.Ten],
    num_decks := 1, bet_size := 1, num_sims := 1 }

/-- The report computed for `plain_holder` under the all-zero random
stream. -/
def plain_outs : ActionOutcomes :=
  { hit_once := { estimated_value := 0, win := 0, loss := 0, tie := 1 }
    hit_twice := { estimated_value := -1, win := 0, loss := 1, tie := 0 }
    hit_thrice := { estimated_value := -1, win := 0, loss := 1, tie := 0 }
    stand := { estimated_value := -1, win := 0, loss := 1, tie := 0 }
    split_hit_once := ProbabilityValueOutcomes.new
    split_hit_twice := ProbabilityValueOutcomes.new
    split_hit_thrice := ProbabilityValueOutcomes.new }

/-- Witness: on a concrete non-splittable valid state the four unconditional
slots are the chained simulation results and the split slots keep the
neutral default. -/
theorem generate_all_slots_witness :
    (can_split_hand plain_data.current_cards = true ↔
      (plain_data.current_cards.length = 2 ∧
        plain_data.current_cards.getD 0 Card.Empty =
          plain_data.current_cards.getD 1 Card.Empty)) ∧
    ∃ p1 p2 p3 p4,
      generate_outcomes plain_data (BlackJackAction.HIT 1)
          (fun _ => some 0) 0 = some (plain_outs.hit_once, p1) ∧
      generate_outcomes plain_data (BlackJackAction.HIT 2)
          (fun _ => some 0) p1 = some (plain_outs.hit_twice, p2) ∧
      generate_outcomes plain_data (BlackJackAction.HIT 3)
          (fun _ => some 0) p2 = some (plain_outs.hit_thrice, p3) ∧
      generate_outcomes plain_data BlackJackAction.STAND
          (fun _ => some 0) p3 = some (plain_outs.stand, p4) ∧
      (if can_split_hand plain_data.current_cards then
        ∃ p5 p6 p7,
          generate_outcomes plain_data (BlackJackAction.SPLIT 1)
              (fun _ => some 0) p4 = some (plain_outs.split_hit_once, p5) ∧
          generate_outcomes plain_data (BlackJackAction.SPLIT 2)
              (fun _ => some 0) p5 = some (plain_outs.split_hit_twice, p6) ∧
          generate_outcomes plain_data (BlackJackAction.SPLIT 3)
              (fun _ => some 0) p6 = some (plain_outs.split_hit_thrice, p7)
      else
        plain_outs.split_hit_once = ProbabilityValueOutcomes.new ∧
        plain_outs.split_hit_twice = ProbabilityValueOutcomes.new ∧
        plain_outs.split_hit_thrice = ProbabilityValueOutcomes.new) := by
  have hp : to_user_data_state plain_holder = Except.ok plain_data := by decide
  have g1 : generate_outcomes plain_data (BlackJackAction.HIT 1)
      (fun _ => some 0) 0 =
      some ({ estimated_value := 0, win := 0, loss := 0, tie := 1 }, 2) := by
    rw [generate_outcomes_eq_of_run_trials plain_data (BlackJackAction.HIT 1)
      (fun _ => some 0) 0 0 0 1 2 (by decide)]
    norm_num [plain_data, i32_val]
  have g2 : generate_outcomes plain_data (BlackJackAction.HIT 2)
      (fun _ => some 0) 2 =
      some ({ estimated_value := -1, win := 0, loss := 1, tie := 0 }, 5) := by
    rw [generate_outcomes_eq_of_run_trials plain_data (BlackJackAction.HIT 2)
      (fun _ => some 0) 2 0 1 0 5 (by decide)]
    norm_num [plain_data, i32_val]
  have g3 : generate_outcomes plain_data (BlackJackAction.HIT 3)
      (fun _ => some 0) 5 =
      some ({ estimated_value := -1, win := 0, loss := 1, tie := 0 }, 9) := by
    rw [generate_outcomes_eq_of_run_trials plain_data (BlackJackAction.HIT 3)
      (fun _ => some 0) 5 0 1 0 9 (by decide)]
    norm_num [plain_data, i32_val]
  have g4 : generate_outcomes plain_data BlackJackAction.STAND
      (fun _ => some 0) 9 =
      some ({ estimated_value := -1, win := 0, loss := 1, tie := 0 }, 10) := by
    rw [generate_outcomes_eq_of_run_trials plain_data BlackJackAction.STAND
      (fun _ => some 0) 9 0 1 0 10 (by decide)]
    norm_num [plain_data, i32_val]
  have hrun : run_all plain_data (fun _ => some 0) 0 =
      some (plain_outs, 10) := by
    unfold run_all
    rw [g1, Option.some_bind, g2, Option.some_bind, g3, Option.some_bind,
      g4, Option.some_bind]
    rw [if_neg (by decide)]
    rfl
  have hr : generate_all_action_outcomes plain_holder (fun _ => some 0) =
      some (Except.ok (JsValue.serialized plain_outs)) := by
    simp only [generate_all_action_outcomes, hp]
    rw [if_pos (by decide), hrun]
  exact generate_all_slots plain_holder (fun _ => some 0) plain_data
    plain_outs hp (by decide) hr

/-- A holder whose numeric field cannot be parsed (MalformedInput case). -/
def malformed_holder : UserDataStateHolder :=
  { current_cards := [Card.Ace, Card.Two], dealer_card := [Card.Jack],
    num_decks := "x", bet_size := "1", num_sims := "1" }

/-- A holder that parses but violates a domain invariant: zero decks
(InvalidGameState case). -/
def invalid_holder : UserDataStateHolder :=
  { current_cards := [Card.Ace, Card.Two], dealer_card := [Card.Jack],
    num_decks := "0", bet_size := "1", num_sims := "1" }

/-- The parsed (invalid) state of `invalid_holder`. -/
def invalid_data : UserDataState :=
  { current_cards := [Card.Ace, Card.Two], dealer_card := [Card.Jack],
    num_decks := 0, bet_size := 1, num_sims := 1 }

/-- Counterexample to C4 as stated: a malformed-input failure and an
invalid-state failure return the very same default error value, so the two
error kinds are not distinguishable by the caller. -/
theorem error_kinds_indistinguishable :
    generate_all_action_outcomes malformed_holder (fun _ => some 0) =
      generate_all_action_outcomes invalid_holder (fun _ => some 0) ∧
    generate_all_action_outcomes malformed_holder (fun _ => some 0) =
      some (Except.error JsValue.default) ∧
    to_user_data_state malformed_holder =
      Except.error ParseNumberError.Int ∧
    to_user_data_state invalid_holder = Except.ok invalid_data ∧
    invalid_data.is_valid = false := by
  refine ⟨by decide, by decide, by decide, by decide, by decide⟩

/-- Witness instantiating the amended error-case characterisation on the
malformed holder. -/
theorem generate_all_error_cases_witness :
    (∀ e, generate_all_action_outcomes malformed_holder (fun _ => some 0) =
        some (Except.error e) → e = JsValue.default) ∧
    (generate_all_action_outcomes malformed_holder (fun _ => some 0) =
        some (Except.error JsValue.default) ↔
      (∃ err, to_user_data_state malformed_holder = Except.error err) ∨
      (∃ data, to_user_data_state malformed_holder = Except.ok data ∧
        data.is_valid = false)) :=
  generate_all_error_cases malformed_holder (fun _ => some 0)

/-- A valid game state whose 52 known player cards empty the one-deck
template: the first trial then draws from an exhausted deck. -/
def exhaust_holder : UserDataStateHolder :=
  { current_cards := Deck.new 1, dealer_card := [Card.Ace],
    num_decks := "1", bet_size := "1", num_sims := "1" }

/-- The parsed (valid) state of `exhaust_holder`. -/
def exhaust_data : UserDataState :=
  { current_cards := Deck.new 1, dealer_card := [Card.Ace],
    num_decks := 1, bet_size := 1, num_sims := 1 }

/-- Counterexample to C1 as stated: a draw from an exhausted deck fails in
both random-source branches (no deterministic fallback covers exhaustion —
the first-card fallback only covers random-source failure), and a valid
top-level request whose deck template is emptied by the known cards panics
instead of completing its requested trials. -/
theorem draw_exhausted_deck_counterexample :
    take_random_card_from_deck [] (some 0) = none ∧
    take_random_card_from_deck [] none = none ∧
    to_user_data_state exhaust_holder = Except.ok exhaust_data ∧
    exhaust_data.is_valid = true ∧
    generate_all_action_outcomes exhaust_holder (fun _ => some 0) = none := by
  refine ⟨rfl, rfl, by decide, by decide, by decide⟩

/-- Modelled from the spec: §4.3's achievable totals — the cartesian sums of
the per-card admissible value sets as unbounded integers, the spec's reading
of `achievableTotals` (the program's sums instead wrap in u8). -/
def specSums : List (List ℕ) → List ℕ
  | [] => [0]
  | vs :: rest => vs.flatMap (fun v => (specSums rest).map (fun t => v + t))

/-- Modelled from the spec: `achievableTotals(hand)` over unbounded sums. -/
def spec_achievable_totals (cards : List Card) : List ℕ :=
  specSums (cards.map (fun card => card.get_card_values))

/-- Modelled from the spec: the uncapped maximum achievable total driving the
Dealer Policy of §4.4. -/
def spec_max_total (cards : List Card) : ℕ :=
  (spec_achievable_totals cards).foldr max 0

/-- Modelled from the spec: `bestTotal(hand)` of §4.3 — the maximum
achievable total at most 21, `none` meaning bust. -/
def spec_best_option (cards : List Card) : Option ℕ :=
  ((spec_achievable_totals cards).filter (fun v => v ≤ 21)).max?

/-- Counterexample to C5 as stated: a dealer hand of 26 tens has true maximum
achievable total 260 ≥ 17, but its u8-wrapped total is 4, so the guard still
holds and the dealer draws two more cards although the claim requires the
policy to draw exactly while the maximum achievable total is at most 16. -/
theorem dealer_draws_beyond_16_counterexample :
    17 ≤ spec_max_total (List.replicate 26 Card.Ten) ∧
    evaluate_hand (List.replicate 26 Card.Ten) = [4] ∧
    handle_dealer_action (pure_draw (fun _ => Card.Ten)) 18
        (List.replicate 26 Card.Ten) 0 =
      some (List.replicate 28 Card.Ten, 2) := by
  decide

/-- Counterexample to C6 as stated: a player hand of 26 tens is bust in the
spec's sense (no non-bust total exists) and the dealer hand is bust as well,
so the claim requires Loss; the program keeps the player's u8-wrapped total 4
in the ≤ 21 filter and returns Win. -/
theorem classifier_wrap_counterexample :
    spec_best_option (List.replicate 26 Card.Ten) = none ∧
    spec_best_option [Card.Ten, Card.Ten, Card.Five] = none ∧
    evaluate_hands (List.replicate 26 Card.Ten)
      [Card.Ten, Card.Ten, Card.Five] = GameOutcome.WIN := by
  decide

/-- A valid state with the maximal power-of-two trial count at which the i32
win tally reaches the sign bit: a standing natural 21 against a dealer six
wins every trial under the all-zero random stream. -/
def wrap_data : UserDataState :=
  { current_cards := [Card.Ace, Card.Jack], dealer_card := [Card.Six],
    num_decks := 1, bet_size := 1, num_sims := 2147483648 }

/-- The deck template of `wrap_data` (one deck minus the known cards). -/
def wrap_template : List Card :=
  List.foldl remove_card_from_deck (List.foldl remove_card_from_deck
    (Deck.new wrap_data.num_decks) wrap_data.current_cards)
    wrap_data.dealer_card

/-- Under the all-zero stream every trial of `wrap_data` is a win consuming
two random values, independently of the cursor position. -/
theorem wrap_trial (pos : ℕ) :
    run_trial wrap_data BlackJackAction.STAND (fun _ => some 0)
      wrap_template pos = some (GameOutcome.WIN, pos + 2) := rfl

/-- Iterating the winning trial: the win tally advances by one per trial,
wrapping modulo 2^32 exactly as the i32 counter does. -/
theorem wrap_trials :
    ∀ k w pos, w < 4294967296 →
      run_trials wrap_data BlackJackAction.STAND (fun _ => some 0)
          wrap_template k (w, 0, 0) pos =
        some (((w + k) % 4294967296, 0, 0), pos + k * 2) := by
  intro k
  induction k with
  | zero =>
      intro w pos hw
      simp [run_trials, Nat.mod_eq_of_lt hw]
  | succ k ih =>
      intro w pos hw
      rw [run_trials, wrap_trial pos]
      show run_trials wrap_data BlackJackAction.STAND (fun _ => some 0)
          wrap_template k ((w + 1) % 4294967296, 0, 0) (pos + 2) =
        some (((w + (k + 1)) % 4294967296, 0, 0), pos + (k + 1) * 2)
      rw [ih ((w + 1) % 4294967296) (pos + 2) (Nat.mod_lt _ (by omega))]
      have h1 : ((w + 1) % 4294967296 + k) % 4294967296 =
          (w + (k + 1)) % 4294967296 := by omega
      have h2 : pos + 2 + k * 2 = pos + (k + 1) * 2 := by ring
      rw [h1, h2]

/-- The outcome record of the overflowing simulation: the win tally 2^31 is
read back as the i32 value −2^31, giving win probability −1. -/
def wrap_out : ProbabilityValueOutcomes :=
  { estimated_value := -1, win := -1, loss := 0, tie := 0 }

/-- Counterexample to C3 as stated: a completed simulation of 2^31 trials,
each of which the player wins, reports a win probability of −1 (the i32 tally
wrapped negative), so the reported probabilities do not sum to 1 and the
win probability is not wins/trialCount. -/
theorem tally_wrap_counterexample :
    generate_outcomes wrap_data BlackJackAction.STAND (fun _ => some 0) 0 =
      some (wrap_out, 4294967296) ∧
    wrap_out.win + wrap_out.loss + wrap_out.tie ≠ 1 ∧
    wrap_out.win < 0 := by
  have htr : run_trials wrap_data BlackJackAction.STAND (fun _ => some 0)
      wrap_template 2147483648 (0, 0, 0) 0 =
      some ((2147483648, 0, 0), 4294967296) := by
    rw [wrap_trials 2147483648 0 0 (by norm_num)]
  refine ⟨?_, by norm_num [wrap_out], by norm_num [wrap_out]⟩
  rw [generate_outcomes_eq_of_run_trials wrap_data BlackJackAction.STAND
    (fun _ => some 0) 0 2147483648 0 0 4294967296 htr]
  norm_num [wrap_out, wrap_data, i32_val]
